import Mathlib

/-!
Verification of the `MCPJsonPath` placeholder/JSONPath evaluator
(`api/server/services/MCPJsonPath.js`).

The JavaScript source is shallowly embedded over `List Char` (JS strings)
and an inductive `JSValue` (JS/JSON runtime values, with `undefined` kept
distinct from `null`; numbers are modelled as integers, which covers every
value appearing in the claims).  Logging calls in the source have no
behavioural effect and are not modelled.  The external collaborators of
the core (message store, cache backend, path query engine) are modelled
per the spec's interface section.
-/

namespace MCP

/-- JS runtime values as produced by `JSON.parse` and by the path engine.
`undefined` models JS `undefined`, distinct from `null`.  Numbers are
modelled as integers (all numeric values in the claims are integers). -/
inductive JSValue where
  | null
  | undefined
  | bool (b : Bool)
  | num (n : Int)
  | str (s : List Char)
  | arr (xs : List JSValue)
  | obj (kvs : List (List Char × JSValue))

/-- JS truthiness (`if (v)`): `null`, `undefined`, `false`, `0` and the
empty string are falsy; every object and array is truthy. -/
def truthy : JSValue → Bool
  | .null => false
  | .undefined => false
  | .bool b => b
  | .num n => n != 0
  | .str s => !s.isEmpty
  | .arr _ => true
  | .obj _ => true

/-- `typeof v === 'object' && !Array.isArray(v) && v` — a truthy plain
object (note JS `typeof null === 'object'` but `null` is falsy). -/
def isPlainObj : JSValue → Bool
  | .obj _ => true
  | _ => false

/-- JS property read `v[k]` for object values; `undefined` when the key is
absent or the value is not an object.  For duplicate keys the later one
wins, as in a JS object literal. -/
def getField (v : JSValue) (k : List Char) : JSValue :=
  match v with
  | .obj kvs =>
    match kvs.reverse.find? (fun kv => kv.1 == k) with
    | some kv => kv.2
    | none => .undefined
  | _ => .undefined

/-- JSON whitespace / the ASCII core of the JS `\s` class and of
`String.prototype.trim` (the inputs in this development are ASCII). -/
def isJsWs (c : Char) : Bool :=
  c = ' ' || c = '\t' || c = '\n' || c = '\r' || c = '\x0b' || c = '\x0c'

/-- `String.prototype.trim`: strip leading and trailing whitespace. -/
def trimList (s : List Char) : List Char :=
  ((s.dropWhile isJsWs).reverse.dropWhile isJsWs).reverse

/-- One escape sequence inside a JSON string literal (`\u` escapes are not
modelled; no input in this development uses them). -/
def jsonEscChar : Char → Option Char
  | '"' => some '"'
  | '\\' => some '\\'
  | '/' => some '/'
  | 'b' => some '\x08'
  | 'f' => some '\x0c'
  | 'n' => some '\n'
  | 'r' => some '\r'
  | 't' => some '\t'
  | _ => none

/-- Parse the body of a JSON string literal (after the opening quote),
returning the decoded characters and the remainder after the closing
quote.  Raw control characters are rejected, as in `JSON.parse`. -/
def parseJsonStringBody : List Char → Option (List Char × List Char)
  | [] => none
  | '"' :: rest => some ([], rest)
  | '\\' :: c :: rest =>
    match jsonEscChar c with
    | some ec =>
      match parseJsonStringBody rest with
      | some (s, r) => some (ec :: s, r)
      | none => none
    | none => none
  | c :: rest =>
    if c.toNat < 32 then none
    else
      match parseJsonStringBody rest with
      | some (s, r) => some (c :: s, r)
      | none => none

/-- Parse a JSON integer literal (optional minus, no leading zeros).
Numbers with a fraction or exponent are not modelled (no claim uses
them) and make the parse fail. -/
def parseJsonNumber (s : List Char) : Option (Int × List Char) :=
  let (neg, s1) := match s with
    | '-' :: r => (true, r)
    | _ => (false, s)
  let digits := s1.takeWhile Char.isDigit
  let rest := s1.dropWhile Char.isDigit
  if digits.isEmpty then none
  else if digits.length ≥ 2 ∧ digits.head? = some '0' then none
  else
    match rest with
    | '.' :: _ => none
    | 'e' :: _ => none
    | 'E' :: _ => none
    | _ =>
      let n : Nat := digits.foldl (fun acc c => acc * 10 + (c.toNat - 48)) 0
      some (if neg then -(n : Int) else (n : Int), rest)

mutual

/-- Fuel-indexed parser for one JSON value (leading whitespace allowed),
returning the value and the unconsumed remainder. -/
def parseJsonVal : Nat → List Char → Option (JSValue × List Char)
  | 0, _ => none
  | fuel + 1, s =>
    match s.dropWhile isJsWs with
    | '{' :: rest => parseJsonObjItems fuel rest []
    | '[' :: rest => parseJsonArrItems fuel rest []
    | '"' :: rest =>
      match parseJsonStringBody rest with
      | some (str, r) => some (.str str, r)
      | none => none
    | 't' :: 'r' :: 'u' :: 'e' :: rest => some (.bool true, rest)
    | 'f' :: 'a' :: 'l' :: 's' :: 'e' :: rest => some (.bool false, rest)
    | 'n' :: 'u' :: 'l' :: 'l' :: rest => some (.null, rest)
    | other =>
      match parseJsonNumber other with
      | some (n, r) => some (.num n, r)
      | none => none

/-- Parse the members of a JSON object after `{` or after a comma. -/
def parseJsonObjItems : Nat → List Char → List (List Char × JSValue) →
    Option (JSValue × List Char)
  | 0, _, _ => none
  | fuel + 1, s, acc =>
    match s.dropWhile isJsWs with
    | '}' :: rest => if acc.isEmpty then some (.obj acc, rest) else none
    | '"' :: rest =>
      match parseJsonStringBody rest with
      | some (key, r1) =>
        match r1.dropWhile isJsWs with
        | ':' :: r2 =>
          match parseJsonVal fuel r2 with
          | some (v, r3) =>
            match r3.dropWhile isJsWs with
            | ',' :: r4 => parseJsonObjItems fuel r4 (acc ++ [(key, v)])
            | '}' :: r4 => some (.obj (acc ++ [(key, v)]), r4)
            | _ => none
          | none => none
        | _ => none
      | none => none
    | _ => none

/-- Parse the elements of a JSON array after `[` or after a comma. -/
def parseJsonArrItems : Nat → List Char → List JSValue →
    Option (JSValue × List Char)
  | 0, _, _ => none
  | fuel + 1, s, acc =>
    match s.dropWhile isJsWs with
    | ']' :: rest => if acc.isEmpty then some (.arr acc, rest) else none
    | other =>
      match parseJsonVal fuel other with
      | some (v, r1) =>
        match r1.dropWhile isJsWs with
        | ',' :: r2 => parseJsonArrItems fuel r2 (acc ++ [v])
        | ']' :: r2 => some (.arr (acc ++ [v]), r2)
        | _ => none
      | none => none

end

/-- `JSON.parse` model: parse one value and require only whitespace after
it, otherwise fail (`none`). -/
def jsonParse (s : List Char) : Option JSValue :=
  match parseJsonVal (s.length + 1) s with
  | some (v, rest) => if (rest.dropWhile isJsWs).isEmpty then some v else none
  | none => none

/-- Join string pieces with commas (used by `JSON.stringify` for arrays
and objects and by the JS array-to-string coercion). -/
def joinComma : List (List Char) → List Char
  | [] => []
  | [x] => x
  | x :: xs => x ++ ',' :: joinComma xs

/-- Escaping of one character inside a `JSON.stringify` string literal. -/
def stringifyEscChar (c : Char) : List Char :=
  if c = '"' then ['\\', '"']
  else if c = '\\' then ['\\', '\\']
  else if c = '\n' then ['\\', 'n']
  else if c = '\r' then ['\\', 'r']
  else if c = '\t' then ['\\', 't']
  else [c]

/-- `JSON.stringify` rendering of a string, with quotes. -/
def quoteJson (s : List Char) : List Char :=
  '"' :: (s.flatMap stringifyEscChar ++ ['"'])

mutual

/-- `JSON.stringify` model.  Inside an array `undefined` renders as
`null`; inside an object a member with `undefined` value is dropped —
as in JS.  (Top-level `undefined` never reaches this function in the
modelled code paths.)  On inductive values stringification cannot throw,
so the source's `catch` fallback to `String(result)` is dead here. -/
def jsStringify : JSValue → List Char
  | .null => "null".toList
  | .undefined => "null".toList
  | .bool true => "true".toList
  | .bool false => "false".toList
  | .num n => (toString n).toList
  | .str s => quoteJson s
  | .arr xs => '[' :: (joinComma (jsStringifyList xs) ++ [']'])
  | .obj kvs => '\x7b' :: (joinComma (jsStringifyKvs kvs) ++ ['\x7d'])

/-- Stringify every element of an array. -/
def jsStringifyList : List JSValue → List (List Char)
  | [] => []
  | x :: xs => jsStringify x :: jsStringifyList xs

/-- Stringify the members of an object, dropping `undefined` values. -/
def jsStringifyKvs : List (List Char × JSValue) → List (List Char)
  | [] => []
  | (k, v) :: rest =>
    match v with
    | .undefined => jsStringifyKvs rest
    | _ => (quoteJson k ++ ':' :: jsStringify v) :: jsStringifyKvs rest

end

mutual

/-- JS `String(v)` coercion (what `JSON.parse` applies to a non-string
argument): arrays join their coerced elements with commas (`null` and
`undefined` elements become empty), plain objects give
`[object Object]`. -/
def jsCoerceString : JSValue → List Char
  | .str s => s
  | .num n => (toString n).toList
  | .bool true => "true".toList
  | .bool false => "false".toList
  | .null => "null".toList
  | .undefined => "undefined".toList
  | .obj _ => "[object Object]".toList
  | .arr xs => joinComma (jsCoerceList xs)

/-- Coerce array elements for `Array.prototype.toString`. -/
def jsCoerceList : List JSValue → List (List Char)
  | [] => []
  | x :: xs =>
    (match x with
      | .null => []
      | .undefined => []
      | v => jsCoerceString v) :: jsCoerceList xs

end

/-- `tryParse` (line 137) on a string argument: `JSON.parse`, with `null`
on failure. -/
def tryParseStr (s : List Char) : JSValue :=
  (jsonParse s).getD .null

/-- `tryParse` on an arbitrary value (the `tryParse(item.text)` call
site): `JSON.parse` first coerces its argument to a string. -/
def tryParseVal (v : JSValue) : JSValue :=
  (jsonParse (jsCoerceString v)).getD .null

/-- The guard of the text-part branch of `parseToolCallOutput` (line 156):
`item && typeof item === 'object' && !Array.isArray(item) &&
item.type === "text"`. -/
def isTextObj (item : JSValue) : Bool :=
  match item with
  | .obj _ =>
    match getField item "type".toList with
    | .str s => s == "text".toList
    | _ => false
  | _ => false

/-- The loop over array elements in `parseToolCallOutput` (lines 154-163):
pushes each truthy inner parse of a `type === "text"` element and tracks
whether any was found. -/
def textPartEntriesLoop : List JSValue → List JSValue → Bool →
    List JSValue × Bool
  | [], acc, found => (acc, found)
  | item :: rest, acc, found =>
    if isTextObj item then
      let inner := tryParseVal (getField item "text".toList)
      if truthy inner then textPartEntriesLoop rest (acc ++ [inner]) true
      else textPartEntriesLoop rest acc found
    else textPartEntriesLoop rest acc found

/-- `parseToolCallOutput` (lines 147-172): falsy input yields no entries;
an array yields the truthy inner parses of its `type === "text"`
elements, or the whole array when none was found; any other truthy value
is a single entry. -/
def parseToolCallOutput (obj : JSValue) : List JSValue :=
  if truthy obj then
    match obj with
    | .arr items =>
      let res := textPartEntriesLoop items [] false
      if res.2 then res.1 else [.arr items]
    | _ => [obj]
  else []

/-- The backtick character (code 96). -/
def btick : Char := Char.ofNat 96

/-- Split a string at its first ``` fence: `some (before, after)` with
the three backticks removed, `none` when no fence occurs.  Models the
lazy body match of the block regex, which ends at the first closing
fence. -/
def splitAtFence : List Char → Option (List Char × List Char)
  | [] => none
  | c :: rest =>
    if c = btick ∧ rest.take 2 = [btick, btick] then some ([], rest.drop 2)
    else
      match splitAtFence rest with
      | some (a, b) => some (c :: a, b)
      | none => none

/-- Case-insensitive test that a string begins with `json` (the `i` flag
of the block regex). -/
def startsWithJsonCI (s : List Char) : Bool :=
  (s.take 4).map Char.toLower = "json".toList

/-- Scanner equivalent of the global regex
`` /```\s*json\s*([\s\S]*?)\s*```/gi `` (line 119): find a fence,
optionally skip whitespace, match `json` case-insensitively, take
everything up to the next fence, trim it; continue after the closing
fence.  A candidate opening with no later closing fence yields no
further matches (the remainder then contains no fence at all).  The
fuel argument only forces structural recursion; every call strictly
shortens the string, so fuel `s.length` (as passed by `scanBlocks`)
never runs out. -/
def scanBlocksF : Nat → List Char → List (List Char)
  | 0, _ => []
  | _, [] => []
  | fuel + 1, c :: rest =>
    if c = btick ∧ rest.take 2 = [btick, btick] ∧
        startsWithJsonCI ((rest.drop 2).dropWhile isJsWs) then
      match splitAtFence (((rest.drop 2).dropWhile isJsWs).drop 4) with
      | some (content, r) => trimList content :: scanBlocksF fuel r
      | none => []
    else scanBlocksF fuel rest

/-- Block scan at adequate fuel. -/
def scanBlocks (s : List Char) : List (List Char) :=
  scanBlocksF s.length s

/-- `extractJsonCodeBlocks` (lines 114-131): parse each scanned block
body and keep only truthy non-array objects, in scan order. -/
def extractJsonCodeBlocks (s : List Char) : List JSValue :=
  (scanBlocks s).filterMap fun payload =>
    match jsonParse payload with
    | some (JSValue.obj kvs) => some (JSValue.obj kvs)
    | _ => none

/-- The output strings reachable through a `tool_call` property value
(`toolCall.function.output` and `toolCall.output`); `none` models both
an absent field and a non-string one, which line 209 treats alike. -/
structure ToolCallInfo where
  fnOutput : Option (List Char)
  output : Option (List Char)

/-- One content part of a message.  `toolCallProp` is the truthy
`part[ContentTypes.TOOL_CALL]` property when present; `fnOutput` and
`output` are the part's own `function.output` / `output` strings, used
when the part itself is the tool call (`part.type === 'tool_call'`). -/
structure Part where
  type : List Char
  text : Option (List Char)
  toolCallProp : Option ToolCallInfo
  fnOutput : Option (List Char)
  output : Option (List Char)

/-- One persisted message record as consumed by the extractor.  The
`createdAt` / `messageId` / `sender` metadata of the source feed only
log lines and the never-read `time`/`role` locals, so they are not
modelled. -/
structure Message where
  text : Option (List Char)
  content : Option (List Part)

/-- Lines 201-209: locate a part's tool-call output string — the
`tool_call` property if truthy, else the part itself when its type is
`tool_call`; then the first string among `function.output`, `output`. -/
def partToolOutput (p : Part) : Option (List Char) :=
  match p.toolCallProp with
  | some tc =>
    match tc.fnOutput with
    | some s => some s
    | none => tc.output
  | none =>
    if p.type = "tool_call".toList then
      match p.fnOutput with
      | some s => some s
      | none => p.output
    else none

/-- Loop 1 of `buildEntriesFromMessages` (lines 199-220): tool-call
outputs of each content part, appended to the running entry list. -/
def toolLoop : List Part → List JSValue → List JSValue
  | [], acc => acc
  | p :: ps, acc =>
    match partToolOutput p with
    | some s => toolLoop ps (acc ++ parseToolCallOutput (tryParseStr s))
    | none => toolLoop ps acc

/-- Loop 2b of `buildEntriesFromMessages` (lines 233-246): fenced blocks
of each `text`-typed content part. -/
def partBlocksLoop : List Part → List JSValue → List JSValue
  | [], acc => acc
  | p :: ps, acc =>
    match p.text with
    | some t =>
      if p.type = "text".toList then partBlocksLoop ps (acc ++ extractJsonCodeBlocks t)
      else partBlocksLoop ps acc
    | none => partBlocksLoop ps acc

/-- The per-message body of `buildEntriesFromMessages` threading the
shared `entries` accumulator: tool-call outputs, then fenced blocks of
`msg.text` (skipped for an empty string, which is falsy), then fenced
blocks of text content parts. -/
def buildMsgLoop : List Message → List JSValue → List JSValue
  | [], acc => acc
  | m :: ms, acc =>
    let acc1 := match m.content with
      | some parts => toolLoop parts acc
      | none => acc
    let acc2 := match m.text with
      | some t => if t.isEmpty then acc1 else acc1 ++ extractJsonCodeBlocks t
      | none => acc1
    let acc3 := match m.content with
      | some parts => partBlocksLoop parts acc2
      | none => acc2
    buildMsgLoop ms acc3

/-- `buildEntriesFromMessages` (lines 184-254). -/
def buildEntriesFromMessages (msgs : List Message) : List JSValue :=
  buildMsgLoop msgs []

/-- The external world: the cache backend's current contents, the
message store, and — since both collaborators may throw — per-key /
per-conversation failure flags for `store.get`, `store.set` and
`getMessages` (spec §6, modelled deterministically). -/
structure World where
  cache : List Char → Option JSValue
  msgs : List Char → List Message
  cacheGetFails : List Char → Bool
  cacheSetFails : List Char → Bool
  msgsFails : List Char → Bool

/-- `runtimeKey` (line 20): `` `${conversationId}:${runId ?? 'no-run'}` ``. -/
def runtimeKey (cid : List Char) (rid : Option (List Char)) : List Char :=
  cid ++ ':' :: rid.getD "no-run".toList

/-- `getRuntimeCachedEntries` (lines 90-106): read the cache; a throwing
backend is caught and, like a missing or non-array value, yields
`undefined` (`none`). -/
def getRuntimeCachedEntries (w : World) (cid : List Char)
    (rid : Option (List Char)) : Option (List JSValue) :=
  if w.cacheGetFails (runtimeKey cid rid) then none
  else
    match w.cache (runtimeKey cid rid) with
    | some (JSValue.arr l) => some l
    | _ => none

/-- Write one cache key (the effect of a successful `store.set`). -/
def cacheUpdate (w : World) (k : List Char) (v : JSValue) : World :=
  { w with cache := fun k2 => if k2 = k then some v else w.cache k2 }

/-- `setRuntimeCachedEntry` (lines 71-82): write the entry list under the
run key; a throwing backend is caught and leaves the cache unchanged. -/
def setRuntimeCachedEntry (w : World) (cid : List Char)
    (rid : Option (List Char)) (entries : List JSValue) : World :=
  if w.cacheSetFails (runtimeKey cid rid) then w
  else cacheUpdate w (runtimeKey cid rid) (JSValue.arr entries)

/-- `addRuntimeCachedEntry` (lines 30-69): no-op unless the cache already
holds an array under the key; otherwise extract entries from the live
tool result (string → parse then tool-output rules; array → tool-output
rules; object with truthy `content` → tool-output rules on the content;
anything else → tool-output rules directly) and append them. -/
def entriesOfLiveResult (result : JSValue) : List JSValue :=
  match result with
  | .str s => parseToolCallOutput (tryParseStr s)
  | .arr xs => parseToolCallOutput (.arr xs)
  | .obj kvs =>
    if truthy (getField (.obj kvs) "content".toList) then
      parseToolCallOutput (getField (.obj kvs) "content".toList)
    else parseToolCallOutput (.obj kvs)
  | v => parseToolCallOutput v

/-- `addRuntimeCachedEntry`, state-level. -/
def addRuntimeCachedEntry (w : World) (cid : List Char)
    (rid : Option (List Char)) (result : JSValue) : World :=
  if w.cacheGetFails (runtimeKey cid rid) then w
  else
    match w.cache (runtimeKey cid rid) with
    | some (JSValue.arr existing) =>
      if w.cacheSetFails (runtimeKey cid rid) then w
      else cacheUpdate w (runtimeKey cid rid)
        (JSValue.arr (existing ++ entriesOfLiveResult result))
    | _ => w

/-- Result of `loadHistory`: the updated world, the resolved entry list,
and how many `getMessages` store queries were attempted. -/
structure LoadResult where
  world : World
  entries : List JSValue
  storeQueries : Nat

/-- The body of `loadHistory`'s `try` block (lines 257-270).  Only the
`getMessages` call can throw here: the cache helpers catch their own
errors internally. -/
def loadHistoryBody (w : World) (cid : List Char) (rid : Option (List Char)) :
    Except (List Char) LoadResult :=
  match getRuntimeCachedEntries w cid rid with
  | some l => .ok ⟨w, l, 0⟩
  | none =>
    if w.msgsFails cid then .error "getMessages".toList
    else
      let entries := buildEntriesFromMessages (w.msgs cid)
      .ok ⟨setRuntimeCachedEntry w cid rid entries, entries, 1⟩

/-- `loadHistory` (lines 256-277): the surrounding `catch` resolves any
thrown error to the empty entry list. -/
def loadHistory (w : World) (cid : List Char) (rid : Option (List Char)) :
    LoadResult :=
  match loadHistoryBody w cid rid with
  | .ok r => r
  | .error _ => ⟨w, [], 1⟩

/-- One selector of a path expression. -/
inductive PathSel where
  | idx (i : Int)
  | key (k : List Char)
  | star

/-- Identifier characters of a dot selector. -/
def isIdentChar (c : Char) : Bool :=
  c.isAlphanum || c = '_'

/-- Modelled from the spec: the expression syntax of the external Path
Query Engine (spec §6 — "bracket/dot path syntax including negative
indices").  Parses the selector chain after the leading `$`: `.name`,
`[int]` (possibly negative) and `[*]`; anything else is a syntax error
(`none`), which the engine surfaces by throwing. -/
def parseSelListF : Nat → List Char → Option (List PathSel)
  | _, [] => some []
  | 0, _ => none
  | fuel + 1, '.' :: rest =>
    let k := rest.takeWhile isIdentChar
    if k.isEmpty then none
    else
      match parseSelListF fuel (rest.drop k.length) with
      | some sels => some (.key k :: sels)
      | none => none
  | fuel + 1, '[' :: rest =>
    match rest with
    | '*' :: ']' :: r =>
      match parseSelListF fuel r with
      | some sels => some (.star :: sels)
      | none => none
    | _ =>
      let (neg, r1) := match rest with
        | '-' :: r => (true, r)
        | _ => (false, rest)
      let digits := r1.takeWhile Char.isDigit
      if digits.isEmpty then none
      else
        match r1.dropWhile Char.isDigit with
        | ']' :: r2 =>
          let n : Nat := digits.foldl (fun acc c => acc * 10 + (c.toNat - 48)) 0
          let i : Int := if neg then -(n : Int) else (n : Int)
          match parseSelListF fuel r2 with
          | some sels => some (.idx i :: sels)
          | none => none
        | _ => none
  | _, _ => none

/-- Modelled from the spec: applying one selector to one node (Path
Query Engine, spec §6).  Negative indices count from the end; `[*]`
yields all elements / member values; selectors on unsuitable nodes
match nothing. -/
def selApply (v : JSValue) : PathSel → List JSValue
  | .idx i =>
    match v with
    | .arr xs =>
      let j : Int := if i < 0 then (xs.length : Int) + i else i
      if 0 ≤ j ∧ j < (xs.length : Int) then [xs.getD j.toNat .null] else []
    | _ => []
  | .key k =>
    match v with
    | .obj kvs =>
      match kvs.reverse.find? (fun kv => kv.1 == k) with
      | some kv => [kv.2]
      | none => []
    | _ => []
  | .star =>
    match v with
    | .arr xs => xs
    | .obj kvs => kvs.map (·.2)
    | _ => []

/-- Modelled from the spec: the external Path Query Engine (spec §6).
Given a root document and a path string it returns the wrapped (array)
result of all matches, or an error for a syntactically invalid
expression (the engine throws, which `safeEval` catches). -/
def jsonPathEngine (p : List Char) (root : JSValue) :
    Except (List Char) JSValue :=
  match p with
  | '$' :: rest =>
    match parseSelListF rest.length rest with
    | some sels =>
      .ok (.arr (sels.foldl (fun nodes sel => nodes.flatMap (selApply · sel)) [root]))
    | none => .error "invalid path".toList
  | _ => .error "invalid path".toList

/-- `safeEval` (lines 375-386) over an arbitrary engine: return a
non-array engine result as-is, unwrap a singleton array, return any
other array unchanged, and turn an engine error into `undefined`. -/
def safeEvalWith (engine : List Char → JSValue → Except (List Char) JSValue)
    (path : List Char) (root : JSValue) : JSValue :=
  match engine path root with
  | .error _ => .undefined
  | .ok (.arr [x]) => x
  | .ok (.arr xs) => .arr xs
  | .ok v => v

/-- `safeEval` with the modelled engine. -/
def safeEval (path : List Char) (root : JSValue) : JSValue :=
  safeEvalWith jsonPathEngine path root

/-- Global literal replacement, the semantics of
`s.replace(/pat/g, repl)` for a fixed pattern string: scan left to
right, replace each non-overlapping occurrence, never rescan emitted
replacement text.  Fuel (`s.length` at the wrapper) only forces
structural recursion; each step consumes at least one character. -/
def listReplaceAllF (fuel : Nat) (pat repl : List Char) : List Char → List Char
  | [] => []
  | c :: rest =>
    match fuel with
    | 0 => c :: rest
    | fuel + 1 =>
      if ¬pat.isEmpty ∧ pat.isPrefixOf (c :: rest) then
        repl ++ listReplaceAllF fuel pat repl ((c :: rest).drop pat.length)
      else c :: listReplaceAllF fuel pat repl rest

/-- Replacement at adequate fuel. -/
def listReplaceAll (pat repl s : List Char) : List Char :=
  listReplaceAllF s.length pat repl s

/-- The sentinel for an escaped `\${{` (line 319). -/
def sentOpen : List Char := "__ESC_DOLLAR_OPEN__".toList

/-- The sentinel for an escaped `\$` (line 320). -/
def sentD : List Char := "__ESC_DOLLAR__".toList

/-- The literal placeholder opener. -/
def phOpen : List Char := ['$', '\x7b', '\x7b']

/-- The literal placeholder closer. -/
def phClose : List Char := ['\x7d', '\x7d']

/-- The escaped opener `\${{`. -/
def escOpen : List Char := '\\' :: phOpen

/-- The escaped dollar `\$`. -/
def escD : List Char := ['\\', '$']

/-- Line 321: `value.replace(/\\\$\{\{/g, ESC_DOLLAR_OPEN).replace(/\\\$/g, ESC_DOLLAR)`. -/
def escapeInput (s : List Char) : List Char :=
  listReplaceAll escD sentD (listReplaceAll escOpen sentOpen s)

/-- Line 349: restore the sentinels to their literal unescaped text. -/
def restoreEsc (s : List Char) : List Char :=
  listReplaceAll sentD ['$'] (listReplaceAll sentOpen phOpen s)

/-- `normalizeExpr` (lines 364-373): trim, then prefix `$` unless the
expression already starts with one (both source branches produce the
same prefixed string). -/
def normalizeExpr (expr : List Char) : List Char :=
  let stripped := trimList expr
  match stripped with
  | '$' :: _ => stripped
  | _ => '$' :: stripped

/-- The anchored whole-string test `/^\$\{\{([\s\S]+?)\}\}$/` (line 324).
Being anchored at both ends, the regex matches `t` exactly when `t`
decomposes as `${{` ++ interior ++ `}}` with a nonempty interior —
equivalently when `t` has length ≥ 6, starts with `${{` and ends with
`}}` — and laziness cannot change the captured interior, which is all
of `t` minus the two fixed delimiters. -/
def wholeMatch (t : List Char) : Option (List Char) :=
  if 6 ≤ t.length ∧ t.take 3 = phOpen ∧ t.drop (t.length - 2) = phClose then
    some ((t.drop 3).take (t.length - 5))
  else none

/-- Find the earliest closer for an opened placeholder: `some (interior,
rest)` where the input is `interior ++ }} ++ rest` with the shortest
nonempty interior (the lazy `([\s\S]+?)\}\}` of line 323). -/
def splitAtClose : List Char → Option (List Char × List Char)
  | [] => none
  | c :: rest =>
    if rest.take 2 = phClose then some ([c], rest.drop 2)
    else
      match splitAtClose rest with
      | some (int, r) => some (c :: int, r)
      | none => none

/-- The replacer callback of lines 332-347 applied to an evaluation
result: `null`/`undefined` become empty, strings are inserted verbatim,
everything else is `JSON.stringify`-encoded (total here, so the
`String(result)` fallback for a throwing stringify is dead code). -/
def renderEmbedded : JSValue → List Char
  | .null => []
  | .undefined => []
  | .str s => s
  | v => jsStringify v

/-- The global embedded-placeholder replacement
`input.replace(/\$\{\{([\s\S]+?)\}\}/g, ...)` (lines 332-347), also
recording the normalized expressions queried, in order.  At each
position an occurrence starts iff the next three characters are `${{`
and some closer `}}` follows a nonempty interior; the regex then
resumes after the consumed closer.  Fuel (`s.length` at the wrapper)
only forces structural recursion. -/
def substPlaceholdersF (fuel : Nat) (root : JSValue) :
    List Char → List Char × List (List Char)
  | [] => ([], [])
  | c :: rest =>
    match fuel with
    | 0 => (c :: rest, [])
    | fuel + 1 =>
      if c = '$' ∧ rest.take 2 = ['\x7b', '\x7b'] then
        match splitAtClose (rest.drop 2) with
        | some (int, r) =>
          let expr := normalizeExpr int
          let res := substPlaceholdersF fuel root r
          (renderEmbedded (safeEval expr root) ++ res.1, expr :: res.2)
        | none =>
          let res := substPlaceholdersF fuel root rest
          (c :: res.1, res.2)
      else
        let res := substPlaceholdersF fuel root rest
        (c :: res.1, res.2)

/-- Embedded replacement at adequate fuel. -/
def substPlaceholders (root : JSValue) (s : List Char) :
    List Char × List (List Char) :=
  substPlaceholdersF s.length root s

/-- The string branch of `evaluatePlaceholdersWithRoot` (lines 318-349),
additionally returning the list of normalized expressions evaluated
against the root, in evaluation order.  Escapes are first hidden behind
sentinels; if the trimmed result is a sole whole-string placeholder its
expression is evaluated once and the raw result returned (no sentinel
restoration on this path); otherwise embedded placeholders are
substituted and the sentinels restored. -/
def evalString (root : JSValue) (s : List Char) : JSValue × List (List Char) :=
  let input := escapeInput s
  match wholeMatch (trimList input) with
  | some inner =>
    let expr := normalizeExpr inner
    (safeEval expr root, [expr])
  | none =>
    let res := substPlaceholders root input
    (.str (restoreEsc res.1), res.2)

mutual

/-- `evaluatePlaceholdersWithRoot` (lines 313-362): strings go through
the substitution rule; arrays and objects are rewritten recursively;
`null`/`undefined` and other scalars are returned unchanged. -/
def evalValue (root : JSValue) : JSValue → JSValue
  | .str s => (evalString root s).1
  | .arr xs => .arr (evalValueList root xs)
  | .obj kvs => .obj (evalValueKvs root kvs)
  | v => v

/-- Rewrite each array element. -/
def evalValueList (root : JSValue) : List JSValue → List JSValue
  | [] => []
  | x :: xs => evalValue root x :: evalValueList root xs

/-- Rewrite each object member value, preserving keys and order. -/
def evalValueKvs (root : JSValue) :
    List (List Char × JSValue) → List (List Char × JSValue)
  | [] => []
  | (k, v) :: rest => (k, evalValue root v) :: evalValueKvs root rest

end

/-- `buildJsonRoot` (lines 284-291): the entry list itself is the root
array. -/
def buildJsonRoot (entries : List JSValue) : JSValue :=
  .arr entries

/-- `evaluatePlaceholders` (lines 299-302): build the JSON root from the
context's entry list, then rewrite the value. -/
def evaluatePlaceholders (value : JSValue) (entries : List JSValue) : JSValue :=
  evalValue (buildJsonRoot entries) value

/-- Substring test: does `pat` occur contiguously in `s`? -/
def hasSub (pat : List Char) : List Char → Bool
  | [] => pat.isEmpty
  | c :: t => pat.isPrefixOf (c :: t) || hasSub pat t

/-- Entries contributed by one content part through the tool-call rule. -/
def partToolEntries (p : Part) : List JSValue :=
  match partToolOutput p with
  | some s => parseToolCallOutput (tryParseStr s)
  | none => []

/-- Tool-call entries of one message, in content-part order. -/
def msgToolEntries (m : Message) : List JSValue :=
  match m.content with
  | some parts => parts.flatMap partToolEntries
  | none => []

/-- Fenced-block entries of one message's `text`. -/
def msgTextBlockEntries (m : Message) : List JSValue :=
  match m.text with
  | some t => if t.isEmpty then [] else extractJsonCodeBlocks t
  | none => []

/-- Fenced-block entries of one message's `text`-typed content parts, in
part order. -/
def msgPartBlockEntries (m : Message) : List JSValue :=
  match m.content with
  | some parts =>
    parts.flatMap fun p =>
      match p.text with
      | some t => if p.type = "text".toList then extractJsonCodeBlocks t else []
      | none => []
  | none => []

/-- All entries of one message in extraction order: tool-call outputs,
then text-level fenced blocks, then content-part fenced blocks. -/
def msgEntries (m : Message) : List JSValue :=
  msgToolEntries m ++ msgTextBlockEntries m ++ msgPartBlockEntries m

/-- The contribution of one array element in the tool-output unwrap rule:
`some` of the inner parse when the element is a `type === "text"` object
whose parsed `text` is truthy, else `none`. -/
def innerHit (item : JSValue) : Option JSValue :=
  if isTextObj item then
    if truthy (tryParseVal (getField item "text".toList)) then
      some (tryParseVal (getField item "text".toList))
    else none
  else none

/-- Fixture: a message whose text carries one fenced block `{"a": 1}`. -/
def fencedMsgA : Message :=
  ⟨some "```json \x7b\"a\": 1\x7d```".toList, none⟩

/-- Fixture: a world whose cache always holds the empty entry list and
whose collaborators never fail. -/
def exWorldHit : World :=
  ⟨fun _ => some (JSValue.arr []), fun _ => [], fun _ => false,
    fun _ => false, fun _ => false⟩

/-- Fixture: a world with an empty cache, one persisted message carrying
a fenced block, and a cache backend whose `set` always throws. -/
def exWorldSetFail : World :=
  ⟨fun _ => none, fun _ => [fencedMsgA], fun _ => false,
    fun _ => true, fun _ => false⟩

/-- Fixture: a world with an empty cache whose message store always
throws. -/
def exWorldMsgsFail : World :=
  ⟨fun _ => none, fun _ => [], fun _ => false, fun _ => false,
    fun _ => true⟩

/-! ### Loop lemmas for the entry extractor -/

theorem toolLoop_eq_append (ps : List Part) (acc : List JSValue) :
    toolLoop ps acc = acc ++ ps.flatMap partToolEntries := by
  induction ps generalizing acc with
  | nil => simp [toolLoop]
  | cons p ps ih =>
    rw [List.flatMap_cons]
    simp only [partToolEntries]
    show (match partToolOutput p with
      | some s => toolLoop ps (acc ++ parseToolCallOutput (tryParseStr s))
      | none => toolLoop ps acc) = _
    cases h : partToolOutput p with
    | some s =>
      dsimp only
      rw [ih, List.append_assoc]
    | none =>
      dsimp only
      rw [ih, List.nil_append]

theorem partBlocksLoop_eq_append (ps : List Part) (acc : List JSValue) :
    partBlocksLoop ps acc = acc ++ ps.flatMap (fun p =>
      match p.text with
      | some t => if p.type = "text".toList then extractJsonCodeBlocks t else []
      | none => []) := by
  induction ps generalizing acc with
  | nil => simp [partBlocksLoop]
  | cons p ps ih =>
    rw [List.flatMap_cons]
    show (match p.text with
      | some t =>
        if p.type = "text".toList then partBlocksLoop ps (acc ++ extractJsonCodeBlocks t)
        else partBlocksLoop ps acc
      | none => partBlocksLoop ps acc) = _
    cases h : p.text with
    | some t =>
      dsimp only
      by_cases ht : p.type = "text".toList
      · rw [if_pos ht, if_pos ht, ih, List.append_assoc]
      · rw [if_neg ht, if_neg ht, ih, List.nil_append]
    | none =>
      dsimp only
      rw [ih, List.nil_append]

theorem buildMsgLoop_eq_append (ms : List Message) (acc : List JSValue) :
    buildMsgLoop ms acc = acc ++ ms.flatMap msgEntries := by
  induction ms generalizing acc with
  | nil => simp [buildMsgLoop]
  | cons m ms ih =>
    rw [List.flatMap_cons, buildMsgLoop, ih, msgEntries, msgToolEntries,
      msgTextBlockEntries, msgPartBlockEntries]
    cases hc : m.content with
    | some parts =>
      cases ht : m.text with
      | some t =>
        dsimp only
        by_cases he : t.isEmpty
        · rw [if_pos he, if_pos he, toolLoop_eq_append, partBlocksLoop_eq_append]
          simp
        · rw [if_neg he, if_neg he, toolLoop_eq_append, partBlocksLoop_eq_append]
          simp
      | none =>
        dsimp only
        rw [toolLoop_eq_append, partBlocksLoop_eq_append]
        simp
    | none =>
      cases ht : m.text with
      | some t =>
        dsimp only
        by_cases he : t.isEmpty
        · rw [if_pos he, if_pos he]
          simp
        · rw [if_neg he, if_neg he]
          simp
      | none =>
        dsimp only
        simp

/-! ### Characterization of the tool-output unwrap rule -/

theorem textPartEntriesLoop_spec (items acc : List JSValue) (f : Bool) :
    textPartEntriesLoop items acc f =
      (acc ++ items.filterMap innerHit, f || !(items.filterMap innerHit).isEmpty) := by
  induction items generalizing acc f with
  | nil => simp [textPartEntriesLoop]
  | cons item rest ih =>
    rw [List.filterMap_cons, textPartEntriesLoop, innerHit]
    by_cases hobj : isTextObj item = true
    · rw [if_pos hobj, if_pos hobj]
      by_cases htr : truthy (tryParseVal (getField item "text".toList)) = true
      · rw [if_pos htr, if_pos htr, ih]
        simp
      · rw [if_neg htr, if_neg htr, ih]
    · rw [if_neg hobj, if_neg hobj, ih]

theorem parseToolCallOutput_arr (items : List JSValue) :
    parseToolCallOutput (.arr items) =
      if (items.filterMap innerHit).isEmpty then [.arr items]
      else items.filterMap innerHit := by
  show (if (textPartEntriesLoop items [] false).2 = true
      then (textPartEntriesLoop items [] false).1 else [.arr items]) = _
  rw [textPartEntriesLoop_spec]
  cases h : (items.filterMap innerHit).isEmpty with
  | false => simp [h]
  | true => simp [h]

/-! ### Membership invariants of the extractor -/

theorem innerHit_truthy (item v : JSValue) (h : innerHit item = some v) :
    truthy v = true := by
  unfold innerHit at h
  split at h
  · split at h
    · rename_i htr
      cases h
      exact htr
    · cases h
  · cases h

theorem parseToolCallOutput_truthy (o v : JSValue)
    (h : v ∈ parseToolCallOutput o) : truthy v = true := by
  match o with
  | .arr items =>
    rw [parseToolCallOutput_arr] at h
    split at h
    · rw [List.mem_singleton.mp h]
      rfl
    · rcases List.mem_filterMap.mp h with ⟨item, _, hit⟩
      exact innerHit_truthy item v hit
  | .null | .undefined => cases h
  | .bool b =>
    revert h
    show v ∈ (if truthy (.bool b) then [JSValue.bool b] else []) → _
    cases b with
    | true => intro h; rw [List.mem_singleton.mp h]; rfl
    | false => intro h; cases h
  | .num n =>
    revert h
    show v ∈ (if truthy (.num n) then [JSValue.num n] else []) → _
    intro h
    by_cases hn : truthy (JSValue.num n) = true
    · rw [if_pos hn] at h
      rw [List.mem_singleton.mp h]
      exact hn
    · rw [if_neg hn] at h
      cases h
  | .str s =>
    revert h
    show v ∈ (if truthy (.str s) then [JSValue.str s] else []) → _
    intro h
    by_cases hn : truthy (JSValue.str s) = true
    · rw [if_pos hn] at h
      rw [List.mem_singleton.mp h]
      exact hn
    · rw [if_neg hn] at h
      cases h
  | .obj kvs =>
    rw [List.mem_singleton.mp h]
    rfl

theorem extractJsonCodeBlocks_isPlainObj (s : List Char) (v : JSValue)
    (h : v ∈ extractJsonCodeBlocks s) : isPlainObj v = true := by
  unfold extractJsonCodeBlocks at h
  rcases List.mem_filterMap.mp h with ⟨payload, _, hp⟩
  revert hp
  split
  · rename_i kvs heq
    intro hp
    cases hp
    rfl
  · intro hp
    cases hp

/-! ### Fuel elimination for the string scanners

`listReplaceAllF` and `substPlaceholdersF` consume at least one character
per step, so any fuel of at least the string's length computes the same
result; the following lemmas let the fuel be normalized away. -/

theorem replF_cons (fuel : Nat) (pat repl : List Char) (c : Char)
    (rest : List Char) :
    listReplaceAllF (fuel + 1) pat repl (c :: rest) =
      if ¬pat.isEmpty ∧ pat.isPrefixOf (c :: rest) then
        repl ++ listReplaceAllF fuel pat repl ((c :: rest).drop pat.length)
      else c :: listReplaceAllF fuel pat repl rest := rfl

theorem replF_nil (fuel : Nat) (pat repl : List Char) :
    listReplaceAllF fuel pat repl [] = [] := by
  cases fuel <;> rfl

theorem replF_irrel (pat repl : List Char) :
    ∀ n (s : List Char) (fuel : Nat), s.length ≤ n → s.length ≤ fuel →
      listReplaceAllF fuel pat repl s = listReplaceAllF s.length pat repl s := by
  intro n
  induction n with
  | zero =>
    intro s fuel hn _
    rw [Nat.le_zero] at hn
    rw [List.length_eq_zero.mp hn, replF_nil, replF_nil]
  | succ n ih =>
    intro s fuel hn hf
    match s with
    | [] => rw [replF_nil, replF_nil]
    | c :: rest =>
      match fuel with
      | 0 => exact absurd hf (by simp)
      | f + 1 =>
        simp only [List.length_cons]
        rw [replF_cons, replF_cons]
        simp only [List.length_cons] at hn hf
        by_cases hc : ¬pat.isEmpty ∧ pat.isPrefixOf (c :: rest)
        · rw [if_pos hc, if_pos hc]
          have hlen : ((c :: rest).drop pat.length).length ≤ rest.length := by
            rw [List.length_drop, List.length_cons]
            have : 1 ≤ pat.length := by
              cases pat with
              | nil => simp at hc
              | cons _ _ => simp
            omega
          rw [ih _ f (by omega) (by omega), ih _ rest.length (by omega) (by omega)]
        · rw [if_neg hc, if_neg hc, ih rest f (by omega) (by omega)]

theorem replaceAll_cons_match (pat repl : List Char) (c : Char)
    (rest : List Char) (hne : ¬pat.isEmpty) (hp : pat.isPrefixOf (c :: rest)) :
    listReplaceAll pat repl (c :: rest) =
      repl ++ listReplaceAll pat repl ((c :: rest).drop pat.length) := by
  show listReplaceAllF (rest.length + 1) pat repl (c :: rest) = _
  rw [replF_cons, if_pos ⟨hne, hp⟩]
  have hlen : ((c :: rest).drop pat.length).length ≤ rest.length := by
    rw [List.length_drop, List.length_cons]
    have : 1 ≤ pat.length := by
      cases pat with
      | nil => simp at hne
      | cons _ _ => simp
    omega
  rw [replF_irrel pat repl rest.length _ rest.length hlen (by omega)]
  rfl

theorem replaceAll_cons_nomatch (pat repl : List Char) (c : Char)
    (rest : List Char) (h : ¬(¬pat.isEmpty ∧ pat.isPrefixOf (c :: rest))) :
    listReplaceAll pat repl (c :: rest) = c :: listReplaceAll pat repl rest := by
  show listReplaceAllF (rest.length + 1) pat repl (c :: rest) = _
  rw [replF_cons, if_neg h]
  rfl

theorem isPrefixOf_false_of_head_ne (p0 c : Char) (pt w : List Char)
    (h : p0 ≠ c) : (p0 :: pt).isPrefixOf (c :: w) = false := by
  simp [List.isPrefixOf, h]

theorem replaceAll_id_of_head_notMem (p0 : Char) (pt repl : List Char) :
    ∀ s, p0 ∉ s → listReplaceAll (p0 :: pt) repl s = s := by
  intro s
  induction s with
  | nil => intro _; rfl
  | cons c rest ih =>
    intro h
    have hc : p0 ≠ c := fun he => h (he ▸ List.mem_cons_self c rest)
    have hrest : p0 ∉ rest := fun hm => h (List.mem_cons_of_mem c hm)
    rw [replaceAll_cons_nomatch _ _ _ _ (by
      intro ⟨_, hp⟩
      rw [isPrefixOf_false_of_head_ne p0 c pt rest hc] at hp
      exact Bool.false_ne_true hp), ih hrest]

theorem replaceAll_skip (p0 : Char) (pt repl : List Char) :
    ∀ a z, p0 ∉ a →
      listReplaceAll (p0 :: pt) repl (a ++ z) =
        a ++ listReplaceAll (p0 :: pt) repl z := by
  intro a
  induction a with
  | nil => intro z _; rfl
  | cons c a' ih =>
    intro z h
    have hc : p0 ≠ c := fun he => h (he ▸ List.mem_cons_self c a')
    have ha' : p0 ∉ a' := fun hm => h (List.mem_cons_of_mem c hm)
    rw [List.cons_append, replaceAll_cons_nomatch _ _ _ _ (by
      intro ⟨_, hp⟩
      rw [isPrefixOf_false_of_head_ne p0 c pt (a' ++ z) hc] at hp
      exact Bool.false_ne_true hp), ih z ha']
    rfl

theorem replaceAll_match_head (pat repl z : List Char) (hne : ¬pat.isEmpty) :
    listReplaceAll pat repl (pat ++ z) = repl ++ listReplaceAll pat repl z := by
  match pat with
  | [] => simp at hne
  | p0 :: pt =>
    rw [List.cons_append, replaceAll_cons_match _ _ _ _ hne (by
      rw [← List.cons_append]
      exact List.isPrefixOf_iff_prefix.mpr (List.prefix_append _ _)),
      ← List.cons_append, List.drop_left]

theorem replaceAll_single (p0 : Char) (pt repl a b : List Char)
    (ha : p0 ∉ a) (hb : p0 ∉ b) :
    listReplaceAll (p0 :: pt) repl (a ++ (p0 :: pt) ++ b) = a ++ repl ++ b := by
  rw [List.append_assoc, replaceAll_skip p0 pt repl a _ ha,
    replaceAll_match_head _ _ _ (by simp),
    replaceAll_id_of_head_notMem p0 pt repl b hb, List.append_assoc]

theorem splitAtClose_rest_lt (s : List Char) (p : List Char × List Char)
    (h : splitAtClose s = some p) : p.2.length < s.length := by
  induction s generalizing p with
  | nil => simp [splitAtClose] at h
  | cons c rest ih =>
    simp only [splitAtClose] at h
    split at h
    · cases h
      have h2 : (rest.drop 2).length ≤ rest.length := by
        rw [List.length_drop]; omega
      simp only [List.length_cons]
      omega
    · split at h
      · rename_i int r hir
        cases h
        have hb : r.length < rest.length := ih (int, r) hir
        simp only [List.length_cons]
        omega
      · cases h

theorem substF_nil (fuel : Nat) (root : JSValue) :
    substPlaceholdersF fuel root [] = ([], []) := by
  cases fuel <;> rfl

theorem substF_cons (fuel : Nat) (root : JSValue) (c : Char) (rest : List Char) :
    substPlaceholdersF (fuel + 1) root (c :: rest) =
      if c = '$' ∧ rest.take 2 = ['\x7b', '\x7b'] then
        match splitAtClose (rest.drop 2) with
        | some (int, r) =>
          (renderEmbedded (safeEval (normalizeExpr int) root) ++
            (substPlaceholdersF fuel root r).1,
           normalizeExpr int :: (substPlaceholdersF fuel root r).2)
        | none =>
          (c :: (substPlaceholdersF fuel root rest).1,
           (substPlaceholdersF fuel root rest).2)
      else
        (c :: (substPlaceholdersF fuel root rest).1,
         (substPlaceholdersF fuel root rest).2) := rfl

theorem substF_irrel (root : JSValue) :
    ∀ n (s : List Char) (fuel : Nat), s.length ≤ n → s.length ≤ fuel →
      substPlaceholdersF fuel root s = substPlaceholdersF s.length root s := by
  intro n
  induction n with
  | zero =>
    intro s fuel hn _
    rw [Nat.le_zero] at hn
    rw [List.length_eq_zero.mp hn, substF_nil, substF_nil]
  | succ n ih =>
    intro s fuel hn hf
    match s with
    | [] => rw [substF_nil, substF_nil]
    | c :: rest =>
      match fuel with
      | 0 => exact absurd hf (by simp)
      | f + 1 =>
        simp only [List.length_cons]
        rw [substF_cons, substF_cons]
        simp only [List.length_cons] at hn hf
        by_cases hc : c = '$' ∧ rest.take 2 = ['\x7b', '\x7b']
        · rw [if_pos hc, if_pos hc]
          cases hsc : splitAtClose (rest.drop 2) with
          | some p =>
            obtain ⟨int, r⟩ := p
            have hr : r.length < (rest.drop 2).length :=
              splitAtClose_rest_lt _ _ hsc
            have hr2 : (rest.drop 2).length ≤ rest.length := by
              rw [List.length_drop]; omega
            dsimp only
            rw [ih r f (by omega) (by omega), ih r rest.length (by omega) (by omega)]
          | none =>
            dsimp only
            rw [ih rest f (by omega) (by omega)]
        · rw [if_neg hc, if_neg hc, ih rest f (by omega) (by omega)]

theorem subst_cons_nomatch (root : JSValue) (c : Char) (rest : List Char)
    (h : ¬(c = '$' ∧ rest.take 2 = ['\x7b', '\x7b'])) :
    substPlaceholders root (c :: rest) =
      (c :: (substPlaceholders root rest).1, (substPlaceholders root rest).2) := by
  show substPlaceholdersF (rest.length + 1) root (c :: rest) = _
  rw [substF_cons, if_neg h]
  rfl

theorem subst_cons_match (root : JSValue) (c : Char) (rest int r : List Char)
    (hc : c = '$') (h2 : rest.take 2 = ['\x7b', '\x7b'])
    (hs : splitAtClose (rest.drop 2) = some (int, r)) :
    substPlaceholders root (c :: rest) =
      (renderEmbedded (safeEval (normalizeExpr int) root) ++
        (substPlaceholders root r).1,
       normalizeExpr int :: (substPlaceholders root r).2) := by
  show substPlaceholdersF (rest.length + 1) root (c :: rest) = _
  rw [substF_cons, if_pos ⟨hc, h2⟩, hs]
  have hr : r.length < (rest.drop 2).length := splitAtClose_rest_lt _ _ hs
  have hr2 : (rest.drop 2).length ≤ rest.length := by
    rw [List.length_drop]; omega
  dsimp only
  rw [substF_irrel root rest.length r rest.length (by omega) (by omega)]
  rfl

theorem subst_nodollar (root : JSValue) :
    ∀ s, '$' ∉ s → substPlaceholders root s = (s, []) := by
  intro s
  induction s with
  | nil => intro _; rfl
  | cons c rest ih =>
    intro h
    have hc : c ≠ '$' := fun he => h (he ▸ List.mem_cons_self c rest)
    have hrest : '$' ∉ rest := fun hm => h (List.mem_cons_of_mem c hm)
    rw [subst_cons_nomatch root c rest (fun hp => hc hp.1), ih hrest]

/-! ### Substring facts -/

theorem hasSub_tail (pat : List Char) (c : Char) (t : List Char)
    (h : hasSub pat (c :: t) = false) : hasSub pat t = false := by
  have := (Bool.or_eq_false_iff.mp h).2
  exact this

theorem hasSub_head (pat : List Char) (c : Char) (t : List Char)
    (h : hasSub pat (c :: t) = false) : pat.isPrefixOf (c :: t) = false := by
  exact (Bool.or_eq_false_iff.mp h).1

theorem hasSub_of_isPrefixOf (pat s : List Char)
    (h : pat.isPrefixOf s = true) : hasSub pat s = true := by
  cases s with
  | nil =>
    cases pat with
    | nil => rfl
    | cons p ps => simp [List.isPrefixOf] at h
  | cons c t => exact Bool.or_eq_true_iff.mpr (Or.inl h)

theorem splitAtClose_marker :
    ∀ e b : List Char, e ≠ [] → hasSub phClose (e ++ ['\x7d']) = false →
      splitAtClose (e ++ phClose ++ b) = some (e, b) := by
  intro e
  induction e with
  | nil => intro b he _; exact absurd rfl he
  | cons x e' ih =>
    intro b _ hcl
    rw [List.cons_append, List.cons_append]
    show (if (e' ++ phClose ++ b).take 2 = phClose
        then some ([x], (e' ++ phClose ++ b).drop 2)
        else match splitAtClose (e' ++ phClose ++ b) with
          | some (int, r) => some (x :: int, r)
          | none => none) = some (x :: e', b)
    cases e' with
    | nil => rfl
    | cons y e2 =>
      have hne : ¬((y :: e2) ++ phClose ++ b).take 2 = phClose := by
        cases e2 with
        | nil =>
          simp only [List.cons_append, List.nil_append, phClose]
          intro hx
          have hy : y = '\x7d' := by
            have := List.head_eq_of_cons_eq hx
            exact this
          rw [hy] at hcl
          have : phClose.isPrefixOf (['\x7d'] ++ ['\x7d']) = true := by decide
          have h1 : hasSub phClose (x :: '\x7d' :: ['\x7d']) = false := by
            simpa using hcl
          have h2 := hasSub_tail _ _ _ h1
          have h3 := hasSub_head _ _ _ h2
          simp [phClose, List.isPrefixOf] at h3
        | cons z e3 =>
          simp only [List.cons_append]
          intro hx
          have hy : y = '\x7d' ∧ z = '\x7d' := by
            have h1 := List.head_eq_of_cons_eq hx
            have h2 := List.head_eq_of_cons_eq (List.tail_eq_of_cons_eq hx)
            exact ⟨h1, h2⟩
          have hpre : phClose.isPrefixOf (y :: z :: (e3 ++ ['\x7d'])) = true := by
            rw [hy.1, hy.2]
            simp [phClose, List.isPrefixOf]
          have h1 : hasSub phClose (x :: y :: z :: (e3 ++ ['\x7d'])) = false := by
            simpa using hcl
          have h2 := hasSub_tail _ _ _ h1
          have h3 := hasSub_head _ _ _ h2
          rw [hpre] at h3
          exact Bool.noConfusion h3
      rw [if_neg hne, ih b (by simp) (by
        have h1 : hasSub phClose (x :: ((y :: e2) ++ ['\x7d'])) = false := by
          simpa using hcl
        exact hasSub_tail _ _ _ h1)]

theorem subst_marker (root : JSValue) :
    ∀ a e b : List Char, hasSub phOpen a = false → e ≠ [] →
      hasSub phClose (e ++ ['\x7d']) = false →
      substPlaceholders root (a ++ phOpen ++ e ++ phClose ++ b) =
        (a ++ renderEmbedded (safeEval (normalizeExpr e) root) ++
          (substPlaceholders root b).1,
         normalizeExpr e :: (substPlaceholders root b).2) := by
  intro a
  induction a with
  | nil =>
    intro e b _ he hcl
    have hshape : ([] : List Char) ++ phOpen ++ e ++ phClose ++ b =
        '$' :: ('\x7b' :: '\x7b' :: (e ++ phClose ++ b)) := by
      simp [phOpen]
    rw [hshape,
      subst_cons_match root '$' ('\x7b' :: '\x7b' :: (e ++ phClose ++ b)) e b
        rfl rfl (by
          show splitAtClose (e ++ phClose ++ b) = some (e, b)
          exact splitAtClose_marker e b he hcl),
      List.nil_append]
  | cons c a' ih =>
    intro e b hop he hcl
    have hop' : hasSub phOpen a' = false := hasSub_tail _ _ _ hop
    have hshape : (c :: a') ++ phOpen ++ e ++ phClose ++ b =
        c :: (a' ++ phOpen ++ e ++ phClose ++ b) := by
      simp
    rw [hshape, subst_cons_nomatch root c _ (by
        intro ⟨hcd, ht⟩
        match a' with
        | [] =>
          rw [List.nil_append] at ht
          have : (phOpen ++ e ++ phClose ++ b).take 2 = ['$', '\x7b'] := by
            simp [phOpen]
          rw [this] at ht
          exact absurd (List.head_eq_of_cons_eq ht) (by decide)
        | [d] =>
          have : (([d] : List Char) ++ phOpen ++ e ++ phClose ++ b).take 2 =
              [d, '$'] := by
            simp [phOpen]
          rw [this] at ht
          exact absurd (List.head_eq_of_cons_eq (List.tail_eq_of_cons_eq ht))
            (by decide)
        | d1 :: d2 :: a'' =>
          have h1 := List.head_eq_of_cons_eq ht
          have h2 := List.head_eq_of_cons_eq (List.tail_eq_of_cons_eq ht)
          have hpre : phOpen.isPrefixOf (c :: d1 :: d2 :: (a'' ++ phOpen ++ e
              ++ phClose ++ b)) = true := by
            rw [hcd, h1, h2]
            simp [phOpen, List.isPrefixOf]
          have hh := hasSub_head _ _ _ (show hasSub phOpen
            (c :: d1 :: d2 :: a'') = false from hop)
          have : phOpen.isPrefixOf (c :: d1 :: d2 :: a'') = true := by
            rw [hcd, h1, h2]
            simp [phOpen, List.isPrefixOf]
          rw [this] at hh
          exact Bool.noConfusion hh),
      ih e b hop' he hcl]
    simp

theorem wholeMatch_decomp (m : List Char) (hm : m ≠ []) :
    wholeMatch (phOpen ++ m ++ phClose) = some m := by
  have hmlen : 1 ≤ m.length := by
    cases m with
    | nil => exact absurd rfl hm
    | cons _ _ => simp
  have hlen : (phOpen ++ m ++ phClose).length = m.length + 5 := by
    simp [phOpen, phClose]
  have h2 : (phOpen ++ m ++ phClose).length - 2 = (phOpen ++ m).length := by
    rw [hlen]
    simp [phOpen]
  have h5 : (phOpen ++ m ++ phClose).length - 5 = m.length := by
    rw [hlen]
    omega
  have hcond : 6 ≤ (phOpen ++ m ++ phClose).length ∧
      (phOpen ++ m ++ phClose).take 3 = phOpen ∧
      (phOpen ++ m ++ phClose).drop ((phOpen ++ m ++ phClose).length - 2) =
        phClose := by
    refine ⟨by omega, ?_, ?_⟩
    · rw [List.append_assoc, show (3 : Nat) = phOpen.length from rfl,
        List.take_left]
    · rw [h2, List.drop_left]
  rw [wholeMatch, if_pos hcond]
  congr 1
  rw [h5, List.append_assoc, show (3 : Nat) = phOpen.length from rfl,
    List.drop_left, List.take_left]

theorem evalString_whole (root : JSValue) (s m : List Char)
    (h : trimList (escapeInput s) = phOpen ++ m ++ phClose) (hm : m ≠ []) :
    evalString root s = (safeEval (normalizeExpr m) root, [normalizeExpr m]) := by
  show (match wholeMatch (trimList (escapeInput s)) with
    | some inner => (safeEval (normalizeExpr inner) root, [normalizeExpr inner])
    | none =>
      (.str (restoreEsc (substPlaceholders root (escapeInput s)).1),
        (substPlaceholders root (escapeInput s)).2)) = _
  rw [h, wholeMatch_decomp m hm]

theorem mem_of_mem_dropWhile (p : Char → Bool) (c : Char) :
    ∀ l : List Char, c ∈ l.dropWhile p → c ∈ l := by
  intro l
  induction l with
  | nil => intro h; exact h
  | cons x t ih =>
    intro h
    rw [List.dropWhile_cons] at h
    by_cases hp : p x = true
    · rw [if_pos hp] at h
      exact List.mem_cons_of_mem x (ih h)
    · rw [if_neg hp] at h
      exact h

theorem mem_of_mem_trimList (c : Char) (s : List Char)
    (h : c ∈ trimList s) : c ∈ s := by
  unfold trimList at h
  rw [List.mem_reverse] at h
  have h2 := mem_of_mem_dropWhile _ _ _ h
  rw [List.mem_reverse] at h2
  exact mem_of_mem_dropWhile _ _ _ h2

theorem wholeMatch_none_of_nodollar (s : List Char) (h : '$' ∉ s) :
    wholeMatch (trimList s) = none := by
  rw [wholeMatch]
  by_cases hc : 6 ≤ (trimList s).length ∧ (trimList s).take 3 = phOpen ∧
      (trimList s).drop ((trimList s).length - 2) = phClose
  · exfalso
    have htake := hc.2.1
    have : '$' ∈ (trimList s).take 3 := by
      rw [htake]
      simp [phOpen]
    exact h (mem_of_mem_trimList _ _ (List.mem_of_mem_take this))
  · rw [if_neg hc]

/-! ### History loader case lemmas -/

theorem getRuntimeCachedEntries_hit (w : World) (cid : List Char)
    (rid : Option (List Char)) (l : List JSValue)
    (hg : w.cacheGetFails (runtimeKey cid rid) = false)
    (hl : w.cache (runtimeKey cid rid) = some (JSValue.arr l)) :
    getRuntimeCachedEntries w cid rid = some l := by
  unfold getRuntimeCachedEntries
  rw [if_neg (by rw [hg]; exact Bool.false_ne_true), hl]

theorem getRuntimeCachedEntries_miss (w : World) (cid : List Char)
    (rid : Option (List Char))
    (hg : w.cacheGetFails (runtimeKey cid rid) = false)
    (hl : ∀ l, w.cache (runtimeKey cid rid) ≠ some (JSValue.arr l)) :
    getRuntimeCachedEntries w cid rid = none := by
  unfold getRuntimeCachedEntries
  rw [if_neg (by rw [hg]; exact Bool.false_ne_true)]
  cases hc : w.cache (runtimeKey cid rid) with
  | none => rfl
  | some v =>
    cases v with
    | arr l => exact absurd hc (hl l)
    | null => rfl
    | undefined => rfl
    | bool b => rfl
    | num n => rfl
    | str s => rfl
    | obj kvs => rfl

theorem loadHistory_cached (w : World) (cid : List Char)
    (rid : Option (List Char)) (l : List JSValue)
    (h : getRuntimeCachedEntries w cid rid = some l) :
    loadHistory w cid rid = ⟨w, l, 0⟩ := by
  unfold loadHistory loadHistoryBody
  rw [h]

theorem loadHistory_uncached_ok (w : World) (cid : List Char)
    (rid : Option (List Char))
    (h : getRuntimeCachedEntries w cid rid = none)
    (hm : w.msgsFails cid = false) :
    loadHistory w cid rid =
      ⟨setRuntimeCachedEntry w cid rid (buildEntriesFromMessages (w.msgs cid)),
        buildEntriesFromMessages (w.msgs cid), 1⟩ := by
  unfold loadHistory loadHistoryBody
  rw [h, if_neg (by rw [hm]; exact Bool.false_ne_true)]

theorem loadHistory_uncached_fail (w : World) (cid : List Char)
    (rid : Option (List Char))
    (h : getRuntimeCachedEntries w cid rid = none)
    (hm : w.msgsFails cid = true) :
    loadHistory w cid rid = ⟨w, [], 1⟩ := by
  unfold loadHistory loadHistoryBody
  rw [h, if_pos hm]

theorem setRuntimeCachedEntry_ok (w : World) (cid : List Char)
    (rid : Option (List Char)) (entries : List JSValue)
    (hs : w.cacheSetFails (runtimeKey cid rid) = false) :
    setRuntimeCachedEntry w cid rid entries =
      cacheUpdate w (runtimeKey cid rid) (JSValue.arr entries) := by
  unfold setRuntimeCachedEntry
  rw [if_neg (by rw [hs]; exact Bool.false_ne_true)]

theorem cacheUpdate_read (w : World) (k : List Char) (v : JSValue) :
    (cacheUpdate w k v).cache k = some v := by
  unfold cacheUpdate
  simp

/-! ### Claim theorems -/

/-- Claim C1: a string whose trimmed form (after the escape pass, which
is the identity on escape-free strings) matches the anchored whole-string
placeholder regex — it decomposes as `${{` ++ m ++ `}}` with `m`
nonempty and, per the spec's `(.+)`, free of line terminators — is
evaluated by normalizing the inner expression, querying it exactly once
against the JSON Root, and returning the raw engine result with its
type preserved; in particular `"${{ $[0].x }}"` over root `[{"x": 42}]`
yields the number `42`. -/
theorem C1_whole_string_native :
    (∀ (root : JSValue) (s m : List Char),
      trimList (escapeInput s) = phOpen ++ m ++ phClose → m ≠ [] →
      (∀ c ∈ m, c ≠ '\n' ∧ c ≠ '\r') →
      evalString root s = (safeEval (normalizeExpr m) root, [normalizeExpr m]))
    ∧ evaluatePlaceholders (.str "$\x7b\x7b $[0].x \x7d\x7d".toList)
        [.obj [("x".toList, .num 42)]] = .num 42 :=
  ⟨fun root s m h hm _ => evalString_whole root s m h hm, rfl⟩

/-- Witness for C1: the hypotheses hold at the concrete input
`"${{ $[0].x }}"`, whose evaluation is one query of `$[0].x`. -/
theorem C1_whole_string_native_witness :
    evalString (.arr [.obj [("x".toList, .num 42)]]) "$\x7b\x7b $[0].x \x7d\x7d".toList =
      (.num 42, ["$[0].x".toList]) := by
  have h := C1_whole_string_native.1 (.arr [.obj [("x".toList, .num 42)]])
    "$\x7b\x7b $[0].x \x7d\x7d".toList " $[0].x ".toList rfl (by decide) (by decide)
  rw [h]
  rfl

/-- Claim C2 (amended): every Entry payload extracted from a fenced
```json block is a plain JSON object, and every payload produced by the
tool-call output rule is truthy — but, contrary to the original claim,
tool-call payloads need not be objects (see the counterexample). -/
theorem C2_entry_payload_shape :
    (∀ (s : List Char) (v : JSValue), v ∈ extractJsonCodeBlocks s →
      isPlainObj v = true)
    ∧ (∀ (o v : JSValue), v ∈ parseToolCallOutput o → truthy v = true) :=
  ⟨extractJsonCodeBlocks_isPlainObj, parseToolCallOutput_truthy⟩

/-- Witness for C2's amended claim at a concrete fenced block. -/
theorem C2_entry_payload_shape_witness :
    isPlainObj (JSValue.obj [("a".toList, JSValue.num 1)]) = true :=
  C2_entry_payload_shape.1 "```json \x7b\"a\": 1\x7d```".toList
    (JSValue.obj [("a".toList, JSValue.num 1)])
    (by
      rw [show extractJsonCodeBlocks "```json \x7b\"a\": 1\x7d```".toList =
        [JSValue.obj [("a".toList, JSValue.num 1)]] from rfl]
      exact List.mem_singleton.mpr rfl)

/-- Counterexample to C2 as stated: a message whose tool call returned
`"[1,2]"` contributes the bare array `[1,2]` itself as an Entry payload,
which is not an object. -/
theorem C2_counterexample :
    buildEntriesFromMessages
      [⟨none, some [⟨"tool_call".toList, none, none, some "[1,2]".toList, none⟩]⟩] =
      [JSValue.arr [JSValue.num 1, JSValue.num 2]]
    ∧ isPlainObj (JSValue.arr [JSValue.num 1, JSValue.num 2]) = false :=
  ⟨rfl, rfl⟩

/-- Claim C3: with functioning collaborators, `loadHistory` returns a
cached list (even an empty one) unchanged with no message-store query;
only on a cache miss does it fetch the persisted messages, extract the
entries in message order, store them under the key, and return them;
hence two consecutive calls return the same list and query the store at
most once. -/
theorem C3_cache_first (w : World) (cid : List Char) (rid : Option (List Char))
    (hg : w.cacheGetFails (runtimeKey cid rid) = false)
    (hs : w.cacheSetFails (runtimeKey cid rid) = false)
    (hm : w.msgsFails cid = false) :
    (∀ l, w.cache (runtimeKey cid rid) = some (JSValue.arr l) →
      loadHistory w cid rid = ⟨w, l, 0⟩)
    ∧ ((∀ l, w.cache (runtimeKey cid rid) ≠ some (JSValue.arr l)) →
      loadHistory w cid rid =
        ⟨cacheUpdate w (runtimeKey cid rid)
            (JSValue.arr (buildEntriesFromMessages (w.msgs cid))),
          buildEntriesFromMessages (w.msgs cid), 1⟩)
    ∧ ((loadHistory (loadHistory w cid rid).world cid rid).entries =
          (loadHistory w cid rid).entries
      ∧ (loadHistory w cid rid).storeQueries +
          (loadHistory (loadHistory w cid rid).world cid rid).storeQueries ≤ 1) := by
  have part1 : ∀ l, w.cache (runtimeKey cid rid) = some (JSValue.arr l) →
      loadHistory w cid rid = ⟨w, l, 0⟩ := fun l hl =>
    loadHistory_cached w cid rid l (getRuntimeCachedEntries_hit w cid rid l hg hl)
  have part2 : (∀ l, w.cache (runtimeKey cid rid) ≠ some (JSValue.arr l)) →
      loadHistory w cid rid =
        ⟨cacheUpdate w (runtimeKey cid rid)
            (JSValue.arr (buildEntriesFromMessages (w.msgs cid))),
          buildEntriesFromMessages (w.msgs cid), 1⟩ := by
    intro hl
    rw [loadHistory_uncached_ok w cid rid
      (getRuntimeCachedEntries_miss w cid rid hg hl) hm,
      setRuntimeCachedEntry_ok w cid rid _ hs]
  refine ⟨part1, part2, ?_⟩
  by_cases hex : ∃ l, w.cache (runtimeKey cid rid) = some (JSValue.arr l)
  · obtain ⟨l, hl⟩ := hex
    rw [part1 l hl]
    rw [part1 l hl]
    simp
  · push_neg at hex
    rw [part2 hex]
    have hsecond : loadHistory
        (cacheUpdate w (runtimeKey cid rid)
          (JSValue.arr (buildEntriesFromMessages (w.msgs cid)))) cid rid =
        ⟨cacheUpdate w (runtimeKey cid rid)
            (JSValue.arr (buildEntriesFromMessages (w.msgs cid))),
          buildEntriesFromMessages (w.msgs cid), 0⟩ := by
      apply loadHistory_cached
      apply getRuntimeCachedEntries_hit
      · exact hg
      · exact cacheUpdate_read w _ _
    rw [hsecond]
    simp

/-- Witness for C3: a world whose cache holds the empty list returns it
unchanged with zero store queries. -/
theorem C3_cache_first_witness :
    loadHistory exWorldHit "c".toList none = ⟨exWorldHit, [], 0⟩ :=
  (C3_cache_first exWorldHit "c".toList none rfl rfl rfl).1 [] rfl

/-- Claim C4 (amended): `loadHistory` never propagates an exception: a
cache-read failure is treated as a cache miss, a message-store failure
resolves to the empty list, a cache-write failure is swallowed and the
rebuilt (possibly non-empty) list is still returned, and any thrown
error in the body is caught and resolved to the empty list. -/
theorem C4_no_throw_degradation :
    (∀ (w : World) (cid : List Char) (rid : Option (List Char)),
      getRuntimeCachedEntries w cid rid = none → w.msgsFails cid = true →
      loadHistory w cid rid = ⟨w, [], 1⟩)
    ∧ (∀ (w : World) (cid : List Char) (rid : Option (List Char)),
      w.cacheGetFails (runtimeKey cid rid) = true →
      getRuntimeCachedEntries w cid rid = none)
    ∧ (∀ (w : World) (cid : List Char) (rid : Option (List Char)),
      getRuntimeCachedEntries w cid rid = none → w.msgsFails cid = false →
      (loadHistory w cid rid).entries = buildEntriesFromMessages (w.msgs cid))
    ∧ (∀ (w : World) (cid : List Char) (rid : Option (List Char))
        (e : List Char),
      loadHistoryBody w cid rid = .error e → loadHistory w cid rid = ⟨w, [], 1⟩) := by
  refine ⟨loadHistory_uncached_fail, ?_, ?_, ?_⟩
  · intro w cid rid hg
    unfold getRuntimeCachedEntries
    rw [if_pos hg]
  · intro w cid rid h hm
    rw [loadHistory_uncached_ok w cid rid h hm]
  · intro w cid rid e he
    unfold loadHistory
    rw [he]

/-- Witness for C4's amended claim: a throwing message store yields the
empty list. -/
theorem C4_no_throw_degradation_witness :
    loadHistory exWorldMsgsFail "c".toList none = ⟨exWorldMsgsFail, [], 1⟩ :=
  C4_no_throw_degradation.1 exWorldMsgsFail "c".toList none rfl rfl

/-- Counterexample to C4 as stated: when the cache write fails but the
message fetch succeeds, `loadHistory` resolves to the rebuilt non-empty
list, not to the empty list the claim prescribes. -/
theorem C4_counterexample :
    loadHistory exWorldSetFail "c".toList none =
      ⟨exWorldSetFail, [JSValue.obj [("a".toList, JSValue.num 1)]], 1⟩
    ∧ exWorldSetFail.cacheSetFails (runtimeKey "c".toList none) = true
    ∧ [JSValue.obj [("a".toList, JSValue.num 1)]] ≠ ([] : List JSValue) :=
  ⟨rfl, rfl, fun h => List.noConfusion h⟩

/-- Claim C5 (amended): the tool-output unwrap rule — on a parsed array,
each `type === "text"` element whose parsed `text` is *truthy* becomes
one Entry (a successfully parsed but falsy value such as `0` is
discarded, contrary to the original claim); if no element yields a
truthy parse the whole array is one Entry; a parsed non-array object is
one Entry; a failed outer parse produces none; and the claim's own
example holds. -/
theorem C5_tool_output_unwrap :
    (∀ items : List JSValue,
      parseToolCallOutput (.arr items) =
        if (items.filterMap innerHit).isEmpty then [.arr items]
        else items.filterMap innerHit)
    ∧ (∀ kvs : List (List Char × JSValue),
      parseToolCallOutput (.obj kvs) = [.obj kvs])
    ∧ (∀ s : List Char, jsonParse s = none →
      parseToolCallOutput (tryParseStr s) = [])
    ∧ parseToolCallOutput
        (tryParseStr "[\x7b\"type\":\"text\",\"text\":\"\x7b\\\"k\\\":1\x7d\"\x7d]".toList) =
        [.obj [("k".toList, .num 1)]] := by
  refine ⟨parseToolCallOutput_arr, fun kvs => rfl, ?_, rfl⟩
  intro s h
  show parseToolCallOutput ((jsonParse s).getD .null) = []
  rw [h]
  rfl

/-- Witness for C5's amended claim: a string that fails to parse yields
no entries. -/
theorem C5_tool_output_unwrap_witness :
    parseToolCallOutput (tryParseStr "nope".toList) = [] :=
  C5_tool_output_unwrap.2.2.1 "nope".toList rfl

/-- Counterexample to C5 as stated: in the output
`[{"type":"text","text":"0"}]` the inner parse of `"0"` succeeds (it is
the number `0`), yet the code discards it as falsy and wraps the whole
array instead of producing the entry `0`. -/
theorem C5_counterexample :
    jsonParse "0".toList = some (JSValue.num 0)
    ∧ parseToolCallOutput (tryParseStr "[\x7b\"type\":\"text\",\"text\":\"0\"\x7d]".toList) =
        [JSValue.arr [JSValue.obj [("type".toList, JSValue.str "text".toList),
          ("text".toList, JSValue.str "0".toList)]]]
    ∧ parseToolCallOutput (tryParseStr "[\x7b\"type\":\"text\",\"text\":\"0\"\x7d]".toList) ≠
        [JSValue.num 0] := by
  refine ⟨rfl, rfl, ?_⟩
  intro h
  have h' : [JSValue.arr [JSValue.obj [("type".toList, JSValue.str "text".toList),
      ("text".toList, JSValue.str "0".toList)]]] = [JSValue.num 0] := h
  injection h' with h1 _
  exact JSValue.noConfusion h1

/-- Claim C6: `safeEval` returns a non-array engine result as-is,
unwraps a length-1 array to its element, returns any other array
(length 0 or ≥ 2) unchanged, and resolves an engine error to
`undefined` without throwing. -/
theorem C6_safeEval_unwrap
    (engine : List Char → JSValue → Except (List Char) JSValue)
    (p : List Char) (root : JSValue) :
    (∀ e, engine p root = .error e → safeEvalWith engine p root = .undefined)
    ∧ (∀ x, engine p root = .ok (.arr [x]) → safeEvalWith engine p root = x)
    ∧ (∀ xs, engine p root = .ok (.arr xs) → xs.length ≠ 1 →
        safeEvalWith engine p root = .arr xs)
    ∧ (∀ v, engine p root = .ok v → (∀ xs, v ≠ .arr xs) →
        safeEvalWith engine p root = v) := by
  refine ⟨?_, ?_, ?_, ?_⟩
  · intro e h
    unfold safeEvalWith
    rw [h]
  · intro x h
    unfold safeEvalWith
    rw [h]
  · intro xs h hlen
    unfold safeEvalWith
    rw [h]
    match xs, hlen with
    | [], _ => rfl
    | [x], hlen => exact absurd rfl hlen
    | x :: y :: zs, _ => rfl
  · intro v h hv
    unfold safeEvalWith
    rw [h]
    match v, hv with
    | .null, _ => rfl
    | .undefined, _ => rfl
    | .bool b, _ => rfl
    | .num n, _ => rfl
    | .str s, _ => rfl
    | .obj kvs, _ => rfl
    | .arr xs, hv => exact absurd rfl (hv xs)

/-- Witness for C6: a two-element engine result is returned as the
array itself. -/
theorem C6_safeEval_unwrap_witness :
    safeEvalWith (fun _ _ => Except.ok (JSValue.arr [JSValue.num 7, JSValue.num 8]))
      ['$'] JSValue.null = JSValue.arr [JSValue.num 7, JSValue.num 8] :=
  (C6_safeEval_unwrap _ ['$'] JSValue.null).2.2.1 [JSValue.num 7, JSValue.num 8]
    rfl (by decide)

/-- Claim C7: in a string that is not a sole whole-string placeholder,
each embedded `${{ expr }}` occurrence is replaced in place by the
rendered evaluation result — empty for `null`/`undefined`, verbatim for
a string, `JSON.stringify`-encoded otherwise — and the claim's example
`"val=${{ $[0].x }}"` over `[{"x": {"y": 1}}]` yields `val={"y":1}`. -/
theorem C7_embedded_substitution :
    (∀ (root : JSValue) (a e b : List Char),
      hasSub phOpen a = false → e ≠ [] →
      hasSub phClose (e ++ ['\x7d']) = false →
      substPlaceholders root (a ++ phOpen ++ e ++ phClose ++ b) =
        (a ++ renderEmbedded (safeEval (normalizeExpr e) root) ++
          (substPlaceholders root b).1,
         normalizeExpr e :: (substPlaceholders root b).2))
    ∧ evaluatePlaceholders (.str "val=$\x7b\x7b $[0].x \x7d\x7d".toList)
        [.obj [("x".toList, .obj [("y".toList, .num 1)])]] =
        .str "val=\x7b\"y\":1\x7d".toList :=
  ⟨subst_marker, rfl⟩

/-- Witness for C7: one embedded placeholder between plain text pieces
is substituted with the stringified query result. -/
theorem C7_embedded_substitution_witness :
    substPlaceholders (.arr [.obj [("x".toList, .num 5)]])
      ("val=".toList ++ phOpen ++ " $[0].x ".toList ++ phClose ++ []) =
      ("val=5".toList, ["$[0].x".toList]) := by
  rw [C7_embedded_substitution.1 (.arr [.obj [("x".toList, .num 5)]])
    "val=".toList " $[0].x ".toList [] (by decide) (by decide) (by decide)]
  rfl

/-- Claim C8: backslash-escaped `\${{` is hidden behind a sentinel
before placeholder scanning and restored to the literal `${{`
afterwards, so such an escape is never evaluated — for any
escape-neutral context (no `\`, `$` or `_` around the escape) the
result is the input with the backslash removed and no query is
attempted; in particular `"\${{ literal }}"` evaluates to the literal
string `"${{ literal }}"` with zero queries, and `"ab\$cd"` to
`"ab$cd"`. -/
theorem C8_escape_handling :
    (∀ (root : JSValue) (a b : List Char),
      ('\\' ∉ a ∧ '$' ∉ a ∧ '_' ∉ a) → ('\\' ∉ b ∧ '$' ∉ b ∧ '_' ∉ b) →
      evalString root (a ++ escOpen ++ b) = (.str (a ++ phOpen ++ b), []))
    ∧ (∀ root : JSValue, evalString root "\\$\x7b\x7b literal \x7d\x7d".toList =
        (.str "$\x7b\x7b literal \x7d\x7d".toList, []))
    ∧ (∀ root : JSValue, evalString root "ab\\$cd".toList =
        (.str "ab$cd".toList, [])) := by
  refine ⟨?_, fun root => rfl, fun root => rfl⟩
  intro root a b ⟨ha1, ha2, ha3⟩ ⟨hb1, hb2, hb3⟩
  have hesc : escapeInput (a ++ escOpen ++ b) = a ++ sentOpen ++ b := by
    show listReplaceAll escD sentD
      (listReplaceAll escOpen sentOpen (a ++ escOpen ++ b)) = _
    rw [show escOpen = '\\' :: phOpen from rfl,
      replaceAll_single '\\' phOpen sentOpen a b ha1 hb1,
      show escD = '\\' :: ['$'] from rfl]
    apply replaceAll_id_of_head_notMem
    intro hmem
    rcases List.mem_append.mp hmem with hmem | hmem
    · rcases List.mem_append.mp hmem with hmem | hmem
      · exact ha1 hmem
      · exact absurd hmem (by decide)
    · exact hb1 hmem
  have hnd : '$' ∉ a ++ sentOpen ++ b := by
    intro hmem
    rcases List.mem_append.mp hmem with hmem | hmem
    · rcases List.mem_append.mp hmem with hmem | hmem
      · exact ha2 hmem
      · exact absurd hmem (by decide)
    · exact hb2 hmem
  have hnu : '_' ∉ a ++ phOpen ++ b := by
    intro hmem
    rcases List.mem_append.mp hmem with hmem | hmem
    · rcases List.mem_append.mp hmem with hmem | hmem
      · exact ha3 hmem
      · exact absurd hmem (by decide)
    · exact hb3 hmem
  have hrest : restoreEsc (a ++ sentOpen ++ b) = a ++ phOpen ++ b := by
    show listReplaceAll sentD ['$']
      (listReplaceAll sentOpen phOpen (a ++ sentOpen ++ b)) = _
    rw [show sentOpen = '_' :: "_ESC_DOLLAR_OPEN__".toList from rfl,
      replaceAll_single '_' "_ESC_DOLLAR_OPEN__".toList phOpen a b ha3 hb3,
      show sentD = '_' :: "_ESC_DOLLAR__".toList from rfl,
      replaceAll_id_of_head_notMem '_' "_ESC_DOLLAR__".toList ['$']
        (a ++ phOpen ++ b) hnu]
  show (match wholeMatch (trimList (escapeInput (a ++ escOpen ++ b))) with
    | some inner => (safeEval (normalizeExpr inner) root, [normalizeExpr inner])
    | none =>
      (.str (restoreEsc (substPlaceholders root (escapeInput (a ++ escOpen ++ b))).1),
        (substPlaceholders root (escapeInput (a ++ escOpen ++ b))).2)) = _
  rw [hesc, wholeMatch_none_of_nodollar _ hnd, subst_nodollar root _ hnd]
  dsimp only
  rw [hrest]

/-- Witness for C8: a concrete escape in a neutral context is restored
verbatim with no query attempted. -/
theorem C8_escape_handling_witness :
    evalString JSValue.null ("x ".toList ++ escOpen ++ " y".toList) =
      (.str ("x ".toList ++ phOpen ++ " y".toList), []) :=
  C8_escape_handling.1 JSValue.null "x ".toList " y".toList
    (by refine ⟨?_, ?_, ?_⟩ <;> decide) (by refine ⟨?_, ?_, ?_⟩ <;> decide)

/-- Claim C9: the extractor appends, per message, tool-call outputs (in
content-part order), then the fenced blocks of the message text, then
the fenced blocks of its text content-parts, preserving source order
across messages; and two fenced blocks in one message text keep their
left-to-right order. -/
theorem C9_extraction_order :
    (∀ msgs : List Message,
      buildEntriesFromMessages msgs = msgs.flatMap msgEntries)
    ∧ buildEntriesFromMessages
        [⟨some ("```json \x7b\"a\": 1\x7d``` mid ```json \x7b\"b\": 2\x7d```".toList), none⟩] =
        [JSValue.obj [("a".toList, JSValue.num 1)],
         JSValue.obj [("b".toList, JSValue.num 2)]] := by
  refine ⟨?_, rfl⟩
  intro msgs
  show buildMsgLoop msgs [] = _
  rw [buildMsgLoop_eq_append, List.nil_append]

/-- Claim C10 (amended): a string whose trimmed form (after the escape
pass) is `${{` ++ m ++ `}}` with `m` nonempty takes the whole-string
type-preserving path with the entire interior as one expression; in
particular `"${{a}} ${{b}}"` is evaluated as the single expression
`a}} ${{b` (here an invalid path, so the result is `undefined`), never
as two embedded substitutions. -/
theorem C10_whole_span_single_expr :
    (∀ (root : JSValue) (s m : List Char),
      trimList (escapeInput s) = phOpen ++ m ++ phClose → m ≠ [] →
      evalString root s = (safeEval (normalizeExpr m) root, [normalizeExpr m]))
    ∧ evalString (.arr []) "$\x7b\x7ba\x7d\x7d $\x7b\x7bb\x7d\x7d".toList =
        (.undefined, ["$a\x7d\x7d $\x7b\x7bb".toList]) :=
  ⟨evalString_whole, rfl⟩

/-- Witness for C10's amended claim at the concrete two-span string. -/
theorem C10_whole_span_single_expr_witness :
    evalString (.arr []) "$\x7b\x7ba\x7d\x7d $\x7b\x7bb\x7d\x7d".toList =
      (safeEval (normalizeExpr "a\x7d\x7d $\x7b\x7bb".toList) (.arr []),
        [normalizeExpr "a\x7d\x7d $\x7b\x7bb".toList]) :=
  C10_whole_span_single_expr.1 (.arr [])
    "$\x7b\x7ba\x7d\x7d $\x7b\x7bb\x7d\x7d".toList
    "a\x7d\x7d $\x7b\x7bb".toList rfl (by decide)

/-- Counterexample to C10 as stated: `"${{}}"` begins with `${{` and
ends with `}}`, yet — the interior being empty — the code takes the
embedded path and returns the string unchanged with no query, whereas
the whole-string path on the (empty) interior would return the root
array, a non-string. -/
theorem C10_counterexample :
    ("$\x7b\x7b\x7d\x7d".toList.take 3 = phOpen
      ∧ "$\x7b\x7b\x7d\x7d".toList.drop 3 = phClose)
    ∧ evalString (.arr []) "$\x7b\x7b\x7d\x7d".toList =
        (.str "$\x7b\x7b\x7d\x7d".toList, [])
    ∧ safeEval (normalizeExpr []) (.arr []) = .arr []
    ∧ JSValue.str "$\x7b\x7b\x7d\x7d".toList ≠ JSValue.arr []
    ∧ ([] : List (List Char)) ≠ [normalizeExpr []] :=
  ⟨⟨rfl, rfl⟩, rfl, rfl, fun h => JSValue.noConfusion h,
    fun h => List.noConfusion h⟩

end MCP
